import Mathlib

/-!
Shallow embedding of the scoring-formula recomputation engine
(src/retrieval/stored_formula.py) and of the weight-optimization harness
(src/evaluation/weight_training.py) of the minerva repository, together
with theorems settling behavioural claims about them.

Python floats are modelled as rationals, Python tuples of heterogeneous
values as lists of a value type, Python dicts keyed by strings as ordered
association lists, and Python exceptions as the error side of Except.
-/

namespace Minerva

/-- A value stored in a cell of a hit tuple built by
StoredFormula.fromElasticExplanation: a string (field name or term), a
float, an int (tf, docFreq, maxDocs), or Python None (an idf or tf value
that the parser failed to extract). -/
inductive PyVal where
  | str (s : String)
  | num (q : ℚ)
  | int (n : ℤ)
  | noneV
deriving DecidableEq

/-- A Python exception raised by the embedded code. -/
inductive PyError where
  | valueError (msg : String)
  | keyError (key : String)
  | typeError (msg : String)
  | indexError
  | assertionError
deriving DecidableEq

/-- First-match lookup in an ordered string-keyed dictionary; Python dict
keys are unique, so first match is the binding. -/
def dictFind : List (String × ℚ) → String → Option ℚ
  | [], _ => Option.none
  | (k, v) :: rest, key => if k = key then some v else dictFind rest key

/-- Python dict assignment d[key] = v: replaces the binding if the key is
present (keeping its position), appends a new binding otherwise. -/
def dictSet : List (String × ℚ) → String → ℚ → List (String × ℚ)
  | [], key, v => [(key, v)]
  | (k, w) :: rest, key, v =>
      if k = key then (key, v) :: rest else (k, w) :: dictSet rest key v

/-- part[i] on a Python tuple: raises IndexError when out of range. -/
def tupleGet : List PyVal → ℕ → Except PyError PyVal
  | [], _ => Except.error PyError.indexError
  | v :: _, 0 => Except.ok v
  | _ :: rest, n + 1 => tupleGet rest n

/-- Numeric reading of a tuple cell, as used by the multiplications in
StoredFormula.computeScore; a non-numeric operand is a TypeError. -/
def asNum : PyVal → Except PyError ℚ
  | PyVal.num q => Except.ok q
  | PyVal.int n => Except.ok (n : ℚ)
  | _ => Except.error (PyError.typeError ("unsupported operand type for multiplication"))

/-- Modelled from the spec: the subscript field_parameters[part[0]] at
stored_formula.py:224.  The mapping object is built by
addExtraWeights/runPrecomputedQuery in proc/evaluation modules that are
not under src/; per the spec the lookup yields field_weights[field] with
default 1.0 when the field is absent (a defaultdict in the callers). -/
def dictSub1 (fp : List (String × ℚ)) : PyVal → ℚ
  | PyVal.str s => (dictFind fp s).getD 1
  | _ => 1

/-- kw_parameters.get(part[TERM_POSITION_IN_TUPLE], 0) at
stored_formula.py:231: genuine Python dict .get with default 0, so a term
absent from the map (or a non-string cell) yields 0. -/
def dictGet0 (kw : List (String × ℚ)) : PyVal → ℚ
  | PyVal.str s => (dictFind kw s).getD 0
  | _ => 0

mutual
/-- The parsed explanation object that StoredFormula.computeScore walks:
either a Python tuple (a term/field hit, stored_formula.py:156-186) or a
Python dict.  A dict normally carries a "type" key (a combinator "+",
"*", "max", or a valued node "const"/"coord"); typ = Option.none models a
dict without a "type" key, such as the unmatched sentinel
set at stored_formula.py:196.  value models the "value" entry of
valued nodes (Option.none when the key is absent). -/
inductive Formula where
  | tup (cells : List PyVal)
  | dict (typ : Option String) (parts : FormulaList) (value : Option ℚ)

/-- The "parts" list of a combinator dict node. -/
inductive FormulaList where
  | nil
  | cons (head : Formula) (tail : FormulaList)
end

mutual
/-- StoredFormula.computeScore (stored_formula.py:207-256) with
field_parameters fp and kw_parameters kw; the empty list models a falsy
(None or empty) parameter dict.  For a tuple part: the field multiplier
is computed first (1 when fp is falsy, else the subscript on part[0]);
then the query weight (part[1] when kw is falsy; otherwise a ValueError
when len(part) <= 3, else kw.get(part[6], 0) * part[1]); the result is
query_weight * field_multiplier * part[2].  For a dict part: "+", "*"
and "max" recompute the children then sum / left-fold multiply (Python
reduce, TypeError on an empty list) / left-fold max (ValueError on an
empty list); "const" and "coord" return their stored value (the assert
at stored_formula.py:249 fails when it is missing); a missing "type" key
is a KeyError and any other type string is a ValueError. -/
def computeScore (fp kw : List (String × ℚ)) : Formula → Except PyError ℚ
  | Formula.tup cells =>
      (if fp = [] then Except.ok (1 : ℚ)
       else (tupleGet cells 0).map (fun v => dictSub1 fp v)).bind (fun field_multiplier =>
      (if kw = [] then (tupleGet cells 1).bind asNum
       else if cells.length ≤ 3 then
         Except.error (PyError.valueError ("Record missing 4th parameter: <term>"))
       else (tupleGet cells 6).bind (fun t =>
         (tupleGet cells 1).bind (fun c1 =>
           (asNum c1).map (fun q => dictGet0 kw t * q)))).bind (fun query_weight =>
      ((tupleGet cells 2).bind asNum).map (fun fw =>
        query_weight * field_multiplier * fw)))
  | Formula.dict typ parts value =>
      match typ with
      | Option.none => Except.error (PyError.keyError ("type"))
      | some t =>
          if t = ("*") ∨ t = ("+") ∨ t = ("max") then
            (computeScoreList fp kw parts).bind (fun scores =>
              if t = ("*") then
                match scores with
                | [] => Except.error (PyError.typeError ("reduce of empty sequence with no initial value"))
                | s :: rest => Except.ok (rest.foldl (fun x y => x * y) s)
              else if t = ("+") then Except.ok scores.sum
              else
                match scores with
                | [] => Except.error (PyError.valueError ("max arg is an empty sequence"))
                | s :: rest => Except.ok (rest.foldl max s))
          else if t = ("const") ∨ t = ("coord") then
            match value with
            | some v => Except.ok v
            | Option.none => Except.error PyError.assertionError
          else Except.error (PyError.valueError ("Unexpected operation type: " ++ t))

/-- The list comprehension at stored_formula.py:241: recompute every
child left to right, propagating the first exception. -/
def computeScoreList (fp kw : List (String × ℚ)) : FormulaList → Except PyError (List ℚ)
  | FormulaList.nil => Except.ok []
  | FormulaList.cons f fs =>
      (computeScore fp kw f).bind (fun s =>
        (computeScoreList fp kw fs).map (fun rest => s :: rest))
end

/-- The sentinel formula stored for an unmatched query at
stored_formula.py:196: the Python dict has exactly the keys
"coord" (value 0) and "matches" (value []); in particular it has no
"type" key and no "value" key, which is what computeScore reads. -/
def unmatchedFormula : Formula :=
  Formula.dict Option.none FormulaList.nil Option.none

/-- Left fold of multiplication (Python reduce) over a non-empty score
list equals the product of all the scores. -/
theorem foldl_mul_eq_prod (l : List ℚ) : ∀ a : ℚ,
    l.foldl (fun x y => x * y) a = a * l.prod := by
  induction l with
  | nil => intro a; simp
  | cons b l ih => intro a; simp [List.foldl_cons, ih, List.prod_cons, mul_assoc]

/-- Left fold of max (the Python max builtin) over a score list returns a
member that bounds every element. -/
theorem foldl_max_spec (l : List ℚ) : ∀ a : ℚ,
    l.foldl max a ∈ a :: l ∧ ∀ x ∈ a :: l, x ≤ l.foldl max a := by
  induction l with
  | nil => intro a; simp
  | cons b l ih =>
      intro a
      obtain ⟨hmem, hle⟩ := ih (max a b)
      have hfold : (b :: l).foldl max a = l.foldl max (max a b) := by
        simp [List.foldl_cons]
      constructor
      · rw [hfold]
        simp only [List.mem_cons]
        rcases List.mem_cons.mp hmem with h | h
        · rcases max_choice a b with h2 | h2
          · exact Or.inl (h.trans h2)
          · exact Or.inr (Or.inl (h.trans h2))
        · exact Or.inr (Or.inr h)
      · intro x hx
        rw [hfold]
        rcases List.mem_cons.mp hx with h | h
        · subst h
          exact le_trans (le_max_left x b) (hle _ (List.mem_cons_self _ _))
        rcases List.mem_cons.mp h with h2 | h2
        · subst h2
          exact le_trans (le_max_right a x) (hle _ (List.mem_cons_self _ _))
        · exact hle _ (List.mem_cons_of_mem _ h2)

/-- C1: for a Hit tuple, computeScore returns
query_weight * field_weight_override * field_score, where the override is
field_weights[field] with default 1.0 (and 1 when no field map is
supplied — fp = [] models a falsy parameter dict), and a non-empty
term-weight map replaces the query weight by
term_weights.get(term, 0) * original_query_weight, so a term absent from
the map contributes exactly 0.  The term-weighted cases are stated for a
full 7-cell hit tuple, the shape whose 7th cell (TERM_POSITION_IN_TUPLE
= 6) holds the term. -/
theorem computeScore_hit_formula (fp kw : List (String × ℚ)) (f term : String)
    (qw fw : ℚ) (extra : List PyVal) (a b c : PyVal) (hkw : kw ≠ []) :
    computeScore fp [] (Formula.tup (PyVal.str f :: PyVal.num qw :: PyVal.num fw :: extra)) =
      Except.ok (qw * (if fp = [] then 1 else (dictFind fp f).getD 1) * fw) ∧
    computeScore fp kw
        (Formula.tup [PyVal.str f, PyVal.num qw, PyVal.num fw, a, b, c, PyVal.str term]) =
      Except.ok (((dictFind kw term).getD 0 * qw) *
        (if fp = [] then 1 else (dictFind fp f).getD 1) * fw) ∧
    (dictFind kw term = Option.none →
      computeScore fp kw
          (Formula.tup [PyVal.str f, PyVal.num qw, PyVal.num fw, a, b, c, PyVal.str term]) =
        Except.ok 0) := by
  have h2 : computeScore fp kw
      (Formula.tup [PyVal.str f, PyVal.num qw, PyVal.num fw, a, b, c, PyVal.str term]) =
      Except.ok (((dictFind kw term).getD 0 * qw) *
        (if fp = [] then 1 else (dictFind fp f).getD 1) * fw) := by
    by_cases hfp : fp = [] <;>
      simp [computeScore, tupleGet, asNum, dictSub1, dictGet0, hfp, hkw,
        Except.bind, Except.map]
  refine ⟨?_, h2, ?_⟩
  · by_cases hfp : fp = [] <;>
      simp [computeScore, tupleGet, asNum, dictSub1, hfp,
        Except.bind, Except.map]
  · intro hnone
    rw [h2, hnone]
    simp

/-- C1 witness: concrete field and term maps, hit with field weight 2 for
"title" and term weight 3 for "cat". -/
theorem computeScore_hit_formula_witness :
    ([((("cat") : String), (3 : ℚ))] ≠ []) ∧
    (computeScore [(("title"), (2 : ℚ))] []
        (Formula.tup (PyVal.str ("title") :: PyVal.num 5 :: PyVal.num 7 :: [])) =
      Except.ok (5 * (if ([(("title"), (2 : ℚ))] : List (String × ℚ)) = [] then 1
        else (dictFind [(("title"), (2 : ℚ))] ("title")).getD 1) * 7) ∧
    computeScore [(("title"), (2 : ℚ))] [(("cat"), (3 : ℚ))]
        (Formula.tup [PyVal.str ("title"), PyVal.num 5, PyVal.num 7,
          PyVal.int 1, PyVal.int 1, PyVal.int 1, PyVal.str ("cat")]) =
      Except.ok (((dictFind [(("cat"), (3 : ℚ))] ("cat")).getD 0 * 5) *
        (if ([(("title"), (2 : ℚ))] : List (String × ℚ)) = [] then 1
          else (dictFind [(("title"), (2 : ℚ))] ("title")).getD 1) * 7) ∧
    (dictFind [(("cat"), (3 : ℚ))] ("cat") = Option.none →
      computeScore [(("title"), (2 : ℚ))] [(("cat"), (3 : ℚ))]
          (Formula.tup [PyVal.str ("title"), PyVal.num 5, PyVal.num 7,
            PyVal.int 1, PyVal.int 1, PyVal.int 1, PyVal.str ("cat")]) =
        Except.ok 0)) :=
  ⟨by simp,
   computeScore_hit_formula [(("title"), (2 : ℚ))] [(("cat"), (3 : ℚ))]
     ("title") ("cat") 5 7 [] (PyVal.int 1) (PyVal.int 1) (PyVal.int 1) (by simp)⟩

/-- C4: for a Combine node whose children recompute to the non-empty
score list s :: rest, computeScore returns the sum for a "+" node, the
product for a "*" node, and the maximum (a member bounding every child
score) for a "max" node. -/
theorem computeScore_combine (fp kw : List (String × ℚ)) (parts : FormulaList)
    (s : ℚ) (rest : List ℚ)
    (h : computeScoreList fp kw parts = Except.ok (s :: rest)) :
    computeScore fp kw (Formula.dict (some ("+")) parts Option.none) =
      Except.ok (s :: rest).sum ∧
    computeScore fp kw (Formula.dict (some ("*")) parts Option.none) =
      Except.ok (s :: rest).prod ∧
    (∃ m, computeScore fp kw (Formula.dict (some ("max")) parts Option.none) =
      Except.ok m ∧ m ∈ s :: rest ∧ ∀ x ∈ s :: rest, x ≤ m) := by
  refine ⟨?_, ?_, ⟨rest.foldl max s, ?_, (foldl_max_spec rest s).1,
    (foldl_max_spec rest s).2⟩⟩
  · simp +decide [computeScore, h, Except.bind]
  · simp +decide [computeScore, h, Except.bind, foldl_mul_eq_prod,
      List.prod_cons]
  · simp +decide [computeScore, h, Except.bind]

/-- C4 witness: a Combine node over two Constant children with values
2 and 5. -/
theorem computeScore_combine_witness :
    (computeScoreList [] []
        (FormulaList.cons (Formula.dict (some ("const")) FormulaList.nil (some 2))
          (FormulaList.cons (Formula.dict (some ("coord")) FormulaList.nil (some 5))
            FormulaList.nil)) = Except.ok ((2 : ℚ) :: [(5 : ℚ)])) ∧
    (computeScore [] [] (Formula.dict (some ("+"))
        (FormulaList.cons (Formula.dict (some ("const")) FormulaList.nil (some 2))
          (FormulaList.cons (Formula.dict (some ("coord")) FormulaList.nil (some 5))
            FormulaList.nil)) Option.none) =
      Except.ok ((2 : ℚ) :: [(5 : ℚ)]).sum ∧
    computeScore [] [] (Formula.dict (some ("*"))
        (FormulaList.cons (Formula.dict (some ("const")) FormulaList.nil (some 2))
          (FormulaList.cons (Formula.dict (some ("coord")) FormulaList.nil (some 5))
            FormulaList.nil)) Option.none) =
      Except.ok ((2 : ℚ) :: [(5 : ℚ)]).prod ∧
    (∃ m, computeScore [] [] (Formula.dict (some ("max"))
        (FormulaList.cons (Formula.dict (some ("const")) FormulaList.nil (some 2))
          (FormulaList.cons (Formula.dict (some ("coord")) FormulaList.nil (some 5))
            FormulaList.nil)) Option.none) =
      Except.ok m ∧ m ∈ (2 : ℚ) :: [(5 : ℚ)] ∧ ∀ x ∈ (2 : ℚ) :: [(5 : ℚ)], x ≤ m)) :=
  ⟨by simp +decide [computeScoreList, computeScore, Except.bind, Except.map],
   computeScore_combine [] [] _ 2 [5]
     (by simp +decide [computeScoreList, computeScore, Except.bind, Except.map])⟩

/-- C5: evaluating the code at the failing input.  A Hit parsed with
save_terms=True from a fieldWeight-style explanation is the 4-tuple
(field, qw, fw, term) (stored_formula.py:156); it carries its term as
the 4th cell, yet with a non-empty term-weight map computeScore passes
the len(part) <= 3 guard and then reads part[6]
(TERM_POSITION_IN_TUPLE = 6), which raises IndexError.  A 7-cell hit
with the term in cell 6 is scored without error, and a 3-cell hit
raises the intended ValueError, but the 4-tuple contradicts the claim
that a Hit carrying a term never errors. -/
theorem computeScore_save_terms_tuple_raises :
    computeScore [] [(("cat"), (2 : ℚ))]
        (Formula.tup [PyVal.str ("title"), PyVal.num 1, PyVal.num 3, PyVal.str ("cat")]) =
      Except.error PyError.indexError ∧
    computeScore [] [(("cat"), (2 : ℚ))]
        (Formula.tup [PyVal.str ("title"), PyVal.num 1, PyVal.num 3]) =
      Except.error (PyError.valueError ("Record missing 4th parameter: <term>")) ∧
    computeScore [] [(("cat"), (2 : ℚ))]
        (Formula.tup [PyVal.str ("title"), PyVal.num 1, PyVal.num 3,
          PyVal.int 1, PyVal.int 1, PyVal.int 1, PyVal.str ("cat")]) =
      Except.ok 6 := by
  refine ⟨?_, ?_, ?_⟩ <;>
    norm_num [computeScore, tupleGet, asNum, dictGet0, dictFind,
      Except.bind, Except.map]

/-- C8 counterexample: recomputing the unmatched sentinel
{"coord": 0, "matches": []} does not return 0; part["type"] raises
KeyError because the sentinel dict has no "type" key. -/
theorem computeScore_unmatched_counterexample :
    computeScore [] [] unmatchedFormula = Except.error (PyError.keyError ("type")) ∧
    computeScore [] [] unmatchedFormula ≠ Except.ok 0 :=
  ⟨rfl, fun h => nomatch h⟩

/-- C8 amended: for every choice of field-weight and term-weight maps,
recomputing the unmatched sentinel raises KeyError on the missing
"type" key instead of returning 0. -/
theorem computeScore_unmatched_raises (fp kw : List (String × ℚ)) :
    computeScore fp kw unmatchedFormula = Except.error (PyError.keyError ("type")) := rfl

/-- weights[weight_name] for a key that is present in the dict (the sweep
only ever subscripts names taken from list(weights.keys()), so the
default 0 of this total model is never reached under the membership
hypotheses of the theorems below). -/
def wGet (d : List (String × ℚ)) (k : String) : ℚ := (dictFind d k).getD 0

/-- The mutable locals of the sweep in WeightTrainer.dynamicWeightValues
(weight_training.py:116-132): the ordered weights dict, previous_score
(the last accepted score) and this_score (the last measured score, also
of rejected tentative settings). -/
structure SweepSt where
  weights : List (String × ℚ)
  previous_score : ℚ
  this_score : ℚ

/-- One tentative coordinate move (weight_training.py:121-132):
remember prev_weight, set weights[weight_name] = max(MIN_WEIGHT,
weights[weight_name] + direction) with MIN_WEIGHT = 0, measure the
metric on the training set with the tentative weights, and revert that
single weight iff this_score <= previous_score, accepting (and updating
previous_score) otherwise.  The metric argument stands for
measurePrecomputedResolution(train_set, method, addExtraWeights(weights,
exp), query_type)[0][exp["metric"]] as a deterministic function of the
weights. -/
def tryWeight (metric : List (String × ℚ) → ℚ) (direction : ℚ)
    (weight_name : String) (st : SweepSt) : SweepSt :=
  let prev_weight := wGet st.weights weight_name
  let tentative := dictSet st.weights weight_name (max 0 (prev_weight + direction))
  let this_score := metric tentative
  if this_score ≤ st.previous_score then
    SweepSt.mk (dictSet tentative weight_name prev_weight) st.previous_score this_score
  else
    SweepSt.mk tentative this_score this_score

/-- The iteration order of one full sweep: for direction in movements
(outer loop, weight_training.py:117), for each weight name in insertion
order (inner loop, weight_training.py:119-121). -/
def sweepSteps (movements : List ℚ) (names : List String) : List (ℚ × String) :=
  movements.flatMap (fun d => names.map (fun n => (d, n)))

/-- One full sweep over all step sizes and weight names. -/
def sweep (metric : List (String × ℚ) → ℚ) (steps : List (ℚ × String))
    (st : SweepSt) : SweepSt :=
  steps.foldl (fun s p => tryWeight metric p.1 p.2 s) st

/-- The state of the outer while loop (weight_training.py:112-143):
the sweep locals plus score_baseline, overall_improvement and passes. -/
structure LoopSt where
  sw : SweepSt
  score_baseline : ℚ
  overall_improvement : ℚ
  passes : ℕ

/-- State before the loop (weight_training.py:100-113): previous_score =
score_baseline = the metric of the initial weights, overall_improvement
initialized to score_baseline (line 112), passes = 0.  this_score is a
Python local that is first assigned inside the first sweep; its initial
value here is a placeholder that is never read before being overwritten
whenever the step list is non-empty. -/
def initLoop (metric : List (String × ℚ) → ℚ) (w0 : List (String × ℚ)) : LoopSt :=
  LoopSt.mk (SweepSt.mk w0 (metric w0) (metric w0)) (metric w0) (metric w0) 0

/-- The body of the while loop (weight_training.py:117-143): one full
sweep, then overall_improvement = this_score - score_baseline,
score_baseline = this_score, passes += 1. -/
def loopBody (metric : List (String × ℚ) → ℚ) (steps : List (ℚ × String))
    (st : LoopSt) : LoopSt :=
  let sw2 := sweep metric steps st.sw
  LoopSt.mk sw2 sw2.this_score (sw2.this_score - st.score_baseline) (st.passes + 1)

/-- The loop guard at weight_training.py:116:
while passes < 3 or overall_improvement > 0. -/
def loopCond (st : LoopSt) : Prop :=
  st.passes < 3 ∨ 0 < st.overall_improvement

instance loopCondDecidable (st : LoopSt) : Decidable (loopCond st) := by
  unfold loopCond
  infer_instance

/-- The loop state after n executions of the body (ignoring the guard);
the while loop visits exactly these states while the guard holds. -/
def iterateLoop (metric : List (String × ℚ) → ℚ) (steps : List (ℚ × String)) :
    ℕ → LoopSt → LoopSt
  | 0, st => st
  | n + 1, st => loopBody metric steps (iterateLoop metric steps n st)

/-- The while loop itself, bounded by fuel: run the body while the guard
holds. -/
def whileLoop (metric : List (String × ℚ) → ℚ) (steps : List (ℚ × String)) :
    ℕ → LoopSt → LoopSt
  | 0, st => st
  | fuel + 1, st =>
      if loopCond st then whileLoop metric steps fuel (loopBody metric steps st) else st

/-- The smoothing step at weight_training.py:159-166:
amount = abs(min(1, w) / 3); weights above 1 are decreased by amount,
weights below 1 increased by amount, weight 1 left alone. -/
def smoothWeight (w : ℚ) : ℚ :=
  let amount := |min 1 w / 3|
  if 1 < w then w - amount else if w < 1 then w + amount else w

/-- The experiment options read by the optimizer run modelled here: the
configured movements list and the smooth_weights toggle. -/
structure ExpConfig where
  movements : List ℚ
  smooth_weights : Bool

/-- The optimizer run of WeightTrainer.dynamicWeightValues for one
method and query type, from the initial weights w0: line 49 overwrites
exp["movements"] with [-1, 6, -2] before the sweep loop, so the loop
below iterates over that list and never over exp.movements; after the
loop the weights are smoothed iff exp["smooth_weights"] is set.  The
while loop has no bound in the source; fuel bounds it here. -/
def dynamicWeightRun (exp : ExpConfig) (metric : List (String × ℚ) → ℚ)
    (w0 : List (String × ℚ)) (fuel : ℕ) : List (String × ℚ) :=
  let movements : List ℚ := [-1, 6, -2]
  let names := w0.map Prod.fst
  let final := whileLoop metric (sweepSteps movements names) fuel (initLoop metric w0)
  let ws := final.sw.weights
  if exp.smooth_weights then ws.map (fun p => (p.1, smoothWeight p.2)) else ws

/-- Looking up the key just set finds the new value. -/
theorem dictFind_dictSet_self (d : List (String × ℚ)) (k : String) (v : ℚ) :
    dictFind (dictSet d k v) k = some v := by
  induction d with
  | nil => simp [dictSet, dictFind]
  | cons p rest ih =>
      obtain ⟨a, b⟩ := p
      by_cases h : a = k <;> simp [dictSet, dictFind, h, ih]

/-- Setting one key leaves every other key unchanged. -/
theorem dictFind_dictSet_ne (d : List (String × ℚ)) (k m : String) (v : ℚ)
    (h : k ≠ m) : dictFind (dictSet d k v) m = dictFind d m := by
  induction d with
  | nil => simp [dictSet, dictFind, h]
  | cons p rest ih =>
      obtain ⟨a, b⟩ := p
      by_cases h2 : a = k
      · subst h2
        simp [dictSet, dictFind, h]
      · simp [dictSet, dictFind, h2, ih]

/-- Two assignments to the same key collapse to the last one. -/
theorem dictSet_dictSet (d : List (String × ℚ)) (k : String) (a b : ℚ) :
    dictSet (dictSet d k a) k b = dictSet d k b := by
  induction d with
  | nil => simp [dictSet]
  | cons p rest ih =>
      obtain ⟨x, y⟩ := p
      by_cases h : x = k <;> simp [dictSet, h, ih]

/-- Re-assigning the value a key already holds is the identity. -/
theorem dictSet_find_eq (d : List (String × ℚ)) (k : String) (v : ℚ)
    (h : dictFind d k = some v) : dictSet d k v = d := by
  induction d with
  | nil => simp [dictFind] at h
  | cons p rest ih =>
      obtain ⟨a, b⟩ := p
      by_cases h2 : a = k
      · subst h2
        simp [dictFind] at h
        simp [dictSet, h]
      · simp [dictFind, h2] at h
        simp [dictSet, h2, ih h]

/-- Assignment to a present key preserves the ordered key list. -/
theorem keys_dictSet (d : List (String × ℚ)) (k : String) (v : ℚ)
    (h : k ∈ d.map Prod.fst) : (dictSet d k v).map Prod.fst = d.map Prod.fst := by
  induction d with
  | nil => simp at h
  | cons p rest ih =>
      obtain ⟨a, b⟩ := p
      by_cases h2 : a = k
      · subst h2
        simp [dictSet]
      · simp [h2] at h
        rcases h with h | h
        · exact absurd h.symm h2
        · simp [dictSet, h2, ih (by simpa using h)]

/-- A present key has a stored value. -/
theorem mem_keys_find (d : List (String × ℚ)) (k : String)
    (h : k ∈ d.map Prod.fst) : ∃ v, dictFind d k = some v := by
  induction d with
  | nil => simp at h
  | cons p rest ih =>
      obtain ⟨a, b⟩ := p
      by_cases h2 : a = k
      · exact ⟨b, by simp [dictFind, h2]⟩
      · simp [h2] at h
        rcases h with h | h
        · exact absurd h.symm h2
        · obtain ⟨v, hv⟩ := ih (by simpa using h)
          exact ⟨v, by simp [dictFind, h2, hv]⟩

/-- tryWeight never lowers previous_score: it is updated only to a
strictly greater measured score. -/
theorem tryWeight_prev_mono (metric : List (String × ℚ) → ℚ) (d : ℚ) (n : String)
    (st : SweepSt) : st.previous_score ≤ (tryWeight metric d n st).previous_score := by
  unfold tryWeight
  by_cases h : metric (dictSet st.weights n (max 0 (wGet st.weights n + d))) ≤ st.previous_score
  · simp [h]
  · simp [h]
    exact (lt_of_not_le h).le

/-- tryWeight reads only the weights and previous_score of its input,
never the stale this_score. -/
theorem tryWeight_congr (metric : List (String × ℚ) → ℚ) (d : ℚ) (n : String)
    (st st2 : SweepSt) (hw : st.weights = st2.weights)
    (hp : st.previous_score = st2.previous_score) :
    tryWeight metric d n st = tryWeight metric d n st2 := by
  obtain ⟨w, p, t⟩ := st
  obtain ⟨w2, p2, t2⟩ := st2
  cases hw
  cases hp
  rfl

/-- A tentative move either strictly raises previous_score (accepted) or
leaves both the weights dict and previous_score exactly as they were
(rejected and reverted). -/
theorem tryWeight_dichotomy (metric : List (String × ℚ) → ℚ) (d : ℚ) (n : String)
    (st : SweepSt) (h : n ∈ st.weights.map Prod.fst) :
    st.previous_score < (tryWeight metric d n st).previous_score ∨
    ((tryWeight metric d n st).weights = st.weights ∧
      (tryWeight metric d n st).previous_score = st.previous_score) := by
  unfold tryWeight
  by_cases hle : metric (dictSet st.weights n (max 0 (wGet st.weights n + d))) ≤ st.previous_score
  · right
    obtain ⟨v, hv⟩ := mem_keys_find st.weights n h
    constructor
    · simp [hle, dictSet_dictSet]
      have hwv : wGet st.weights n = v := by simp [wGet, hv]
      rw [hwv]
      exact dictSet_find_eq _ _ _ hv
    · simp [hle]
  · left
    simp [hle]
    exact lt_of_not_le hle

/-- A tentative move on a present weight name preserves the ordered key
list of the weights dict. -/
theorem tryWeight_keys (metric : List (String × ℚ) → ℚ) (d : ℚ) (n : String)
    (st : SweepSt) (h : n ∈ st.weights.map Prod.fst) :
    (tryWeight metric d n st).weights.map Prod.fst = st.weights.map Prod.fst := by
  unfold tryWeight
  by_cases hle : metric (dictSet st.weights n (max 0 (wGet st.weights n + d))) ≤ st.previous_score
  · simp [hle, dictSet_dictSet]
    exact keys_dictSet _ _ _ h
  · simp [hle]
    exact keys_dictSet _ _ _ h

/-- previous_score stays inside any set containing the whole range of
the metric. -/
theorem tryWeight_prev_mem (metric : List (String × ℚ) → ℚ) (d : ℚ) (n : String)
    (st : SweepSt) (S : Finset ℚ) (hS : ∀ w, metric w ∈ S)
    (h : st.previous_score ∈ S) :
    (tryWeight metric d n st).previous_score ∈ S := by
  unfold tryWeight
  by_cases hle : metric (dictSet st.weights n (max 0 (wGet st.weights n + d))) ≤ st.previous_score
  · simpa [hle] using h
  · simpa [hle] using hS _

/-- Unfolding one step of a sweep. -/
theorem sweep_cons (metric : List (String × ℚ) → ℚ) (p : ℚ × String)
    (rest : List (ℚ × String)) (st : SweepSt) :
    sweep metric (p :: rest) st = sweep metric rest (tryWeight metric p.1 p.2 st) := rfl

/-- A full sweep never lowers previous_score. -/
theorem sweep_prev_mono (metric : List (String × ℚ) → ℚ) (steps : List (ℚ × String)) :
    ∀ st : SweepSt, st.previous_score ≤ (sweep metric steps st).previous_score := by
  induction steps with
  | nil => intro st; exact le_refl _
  | cons p rest ih =>
      intro st
      rw [sweep_cons]
      exact le_trans (tryWeight_prev_mono metric p.1 p.2 st) (ih _)

/-- A full sweep keeps previous_score inside any set containing the
metric's range. -/
theorem sweep_prev_mem (metric : List (String × ℚ) → ℚ) (steps : List (ℚ × String))
    (S : Finset ℚ) (hS : ∀ w, metric w ∈ S) :
    ∀ st : SweepSt, st.previous_score ∈ S → (sweep metric steps st).previous_score ∈ S := by
  induction steps with
  | nil => intro st h; exact h
  | cons p rest ih =>
      intro st h
      rw [sweep_cons]
      exact ih _ (tryWeight_prev_mem metric p.1 p.2 st S hS h)

/-- A full sweep over names present in the dict preserves the key list,
and either strictly raises previous_score (some move was accepted) or
returns with the weights dict and previous_score exactly unchanged. -/
theorem sweep_keys_and_dichotomy (metric : List (String × ℚ) → ℚ)
    (steps : List (ℚ × String)) :
    ∀ st : SweepSt, (∀ p ∈ steps, p.2 ∈ st.weights.map Prod.fst) →
    ((sweep metric steps st).weights.map Prod.fst = st.weights.map Prod.fst ∧
     (st.previous_score < (sweep metric steps st).previous_score ∨
      ((sweep metric steps st).weights = st.weights ∧
       (sweep metric steps st).previous_score = st.previous_score))) := by
  induction steps with
  | nil => intro st _; exact ⟨rfl, Or.inr ⟨rfl, rfl⟩⟩
  | cons p rest ih =>
      intro st h
      have hp : p.2 ∈ st.weights.map Prod.fst := h p (List.mem_cons_self _ _)
      have hkeys1 := tryWeight_keys metric p.1 p.2 st hp
      have hrest : ∀ q ∈ rest, q.2 ∈ (tryWeight metric p.1 p.2 st).weights.map Prod.fst := by
        intro q hq
        rw [hkeys1]
        exact h q (List.mem_cons_of_mem _ hq)
      obtain ⟨hkeys2, hdich2⟩ := ih (tryWeight metric p.1 p.2 st) hrest
      rw [sweep_cons]
      refine ⟨hkeys2.trans hkeys1, ?_⟩
      rcases tryWeight_dichotomy metric p.1 p.2 st hp with h1 | ⟨hw1, hp1⟩
      · left
        exact lt_of_lt_of_le h1 (sweep_prev_mono metric rest _)
      · rcases hdich2 with h2 | ⟨hw2, hp2⟩
        · left
          rw [hp1] at h2
          exact h2
        · right
          exact ⟨hw2.trans hw1, hp2.trans hp1⟩

/-- Two sweep inputs agreeing on weights and previous_score produce
identical outputs (for a non-empty step list the stale this_score of the
input is overwritten before it could be read). -/
theorem sweep_congr (metric : List (String × ℚ) → ℚ) (steps : List (ℚ × String))
    (hne : steps ≠ []) (st st2 : SweepSt) (hw : st.weights = st2.weights)
    (hp : st.previous_score = st2.previous_score) :
    sweep metric steps st = sweep metric steps st2 := by
  cases steps with
  | nil => exact absurd rfl hne
  | cons p rest =>
      rw [sweep_cons, sweep_cons, tryWeight_congr metric p.1 p.2 st st2 hw hp]

/-- C2: in a sweep step the weight is tentatively set to
max(0, weight + delta) and the metric re-measured on the training set;
the change is kept, with previous_score updated, iff the new score is
strictly greater than the previously accepted score, and otherwise the
dict returns exactly to its prior state (only that weight was touched);
in both cases every other weight name keeps its value. -/
theorem tryWeight_sweep_step (metric : List (String × ℚ) → ℚ) (direction : ℚ)
    (weight_name : String) (st : SweepSt)
    (hmem : weight_name ∈ st.weights.map Prod.fst) :
    (st.previous_score <
        metric (dictSet st.weights weight_name (max 0 (wGet st.weights weight_name + direction))) →
      tryWeight metric direction weight_name st =
        SweepSt.mk
          (dictSet st.weights weight_name (max 0 (wGet st.weights weight_name + direction)))
          (metric (dictSet st.weights weight_name (max 0 (wGet st.weights weight_name + direction))))
          (metric (dictSet st.weights weight_name (max 0 (wGet st.weights weight_name + direction))))) ∧
    (metric (dictSet st.weights weight_name (max 0 (wGet st.weights weight_name + direction))) ≤
        st.previous_score →
      tryWeight metric direction weight_name st =
        SweepSt.mk st.weights st.previous_score
          (metric (dictSet st.weights weight_name (max 0 (wGet st.weights weight_name + direction))))) ∧
    (∀ m, m ≠ weight_name →
      dictFind (tryWeight metric direction weight_name st).weights m =
        dictFind st.weights m) := by
  obtain ⟨v, hv⟩ := mem_keys_find st.weights weight_name hmem
  have hwv : wGet st.weights weight_name = v := by simp [wGet, hv]
  refine ⟨?_, ?_, ?_⟩
  · intro hgt
    unfold tryWeight
    simp [not_le.mpr hgt]
  · intro hle
    unfold tryWeight
    simp [hle, dictSet_dictSet]
    rw [hwv]
    exact dictSet_find_eq _ _ _ hv
  · intro m hm
    unfold tryWeight
    by_cases hle : metric (dictSet st.weights weight_name (max 0 (wGet st.weights weight_name + direction))) ≤ st.previous_score
    · simp [hle, dictSet_dictSet]
      rw [hwv, dictSet_find_eq _ _ _ hv]
    · simp [hle]
      exact dictFind_dictSet_ne _ _ _ _ (fun he => hm he.symm)

/-- C2 witness: one weight "a" at value 1, accepted score 0, delta 6;
the tentative weight is max(0, 1 + 6) = 7, the measured score 7 exceeds
0, so the move is kept. -/
theorem tryWeight_sweep_step_witness :
    ((("a") : String) ∈ ([((("a") : String), (1 : ℚ))]).map Prod.fst) ∧
    (((SweepSt.mk [((("a") : String), (1 : ℚ))] 0 0).previous_score <
        (fun w => wGet w ("a"))
          (dictSet (SweepSt.mk [((("a") : String), (1 : ℚ))] 0 0).weights ("a")
            (max 0 (wGet (SweepSt.mk [((("a") : String), (1 : ℚ))] 0 0).weights ("a") + 6))) →
      tryWeight (fun w => wGet w ("a")) 6 ("a") (SweepSt.mk [((("a") : String), (1 : ℚ))] 0 0) =
        SweepSt.mk
          (dictSet (SweepSt.mk [((("a") : String), (1 : ℚ))] 0 0).weights ("a")
            (max 0 (wGet (SweepSt.mk [((("a") : String), (1 : ℚ))] 0 0).weights ("a") + 6)))
          ((fun w => wGet w ("a"))
            (dictSet (SweepSt.mk [((("a") : String), (1 : ℚ))] 0 0).weights ("a")
              (max 0 (wGet (SweepSt.mk [((("a") : String), (1 : ℚ))] 0 0).weights ("a") + 6))))
          ((fun w => wGet w ("a"))
            (dictSet (SweepSt.mk [((("a") : String), (1 : ℚ))] 0 0).weights ("a")
              (max 0 (wGet (SweepSt.mk [((("a") : String), (1 : ℚ))] 0 0).weights ("a") + 6))))) ∧
    ((fun w => wGet w ("a"))
        (dictSet (SweepSt.mk [((("a") : String), (1 : ℚ))] 0 0).weights ("a")
          (max 0 (wGet (SweepSt.mk [((("a") : String), (1 : ℚ))] 0 0).weights ("a") + 6))) ≤
        (SweepSt.mk [((("a") : String), (1 : ℚ))] 0 0).previous_score →
      tryWeight (fun w => wGet w ("a")) 6 ("a") (SweepSt.mk [((("a") : String), (1 : ℚ))] 0 0) =
        SweepSt.mk (SweepSt.mk [((("a") : String), (1 : ℚ))] 0 0).weights
          (SweepSt.mk [((("a") : String), (1 : ℚ))] 0 0).previous_score
          ((fun w => wGet w ("a"))
            (dictSet (SweepSt.mk [((("a") : String), (1 : ℚ))] 0 0).weights ("a")
              (max 0 (wGet (SweepSt.mk [((("a") : String), (1 : ℚ))] 0 0).weights ("a") + 6))))) ∧
    (∀ m, m ≠ ("a") →
      dictFind (tryWeight (fun w => wGet w ("a")) 6 ("a")
          (SweepSt.mk [((("a") : String), (1 : ℚ))] 0 0)).weights m =
        dictFind (SweepSt.mk [((("a") : String), (1 : ℚ))] 0 0).weights m)) :=
  ⟨by simp,
   tryWeight_sweep_step (fun w => wGet w ("a")) 6 ("a")
     (SweepSt.mk [((("a") : String), (1 : ℚ))] 0 0) (by simp)⟩

/-- A loop body execution increments passes by one. -/
theorem iterateLoop_passes (metric : List (String × ℚ) → ℚ) (steps : List (ℚ × String))
    (st0 : LoopSt) : ∀ n, (iterateLoop metric steps n st0).passes = st0.passes + n := by
  intro n
  induction n with
  | zero => rfl
  | succ n ih =>
      show (loopBody metric steps (iterateLoop metric steps n st0)).passes = st0.passes + (n + 1)
      simp [loopBody, ih]
      omega

/-- The sweep locals after one more loop body. -/
theorem iterateLoop_sw_succ (metric : List (String × ℚ) → ℚ) (steps : List (ℚ × String))
    (st0 : LoopSt) (n : ℕ) :
    (iterateLoop metric steps (n + 1) st0).sw =
      sweep metric steps (iterateLoop metric steps n st0).sw := rfl

/-- After any sweep, score_baseline equals the sweep's final this_score
(weight_training.py:135). -/
theorem iterateLoop_baseline_succ (metric : List (String × ℚ) → ℚ)
    (steps : List (ℚ × String)) (st0 : LoopSt) (n : ℕ) :
    (iterateLoop metric steps (n + 1) st0).score_baseline =
      (iterateLoop metric steps (n + 1) st0).sw.this_score := rfl

/-- After any sweep, overall_improvement is this_score minus the
previous score_baseline (weight_training.py:134). -/
theorem iterateLoop_improve_succ (metric : List (String × ℚ) → ℚ)
    (steps : List (ℚ × String)) (st0 : LoopSt) (n : ℕ) :
    (iterateLoop metric steps (n + 1) st0).overall_improvement =
      (iterateLoop metric steps (n + 1) st0).sw.this_score -
        (iterateLoop metric steps n st0).score_baseline := rfl

/-- A non-empty movement list over non-empty weight names gives a
non-empty sweep step list. -/
theorem sweepSteps_ne_nil (movements : List ℚ) (names : List String)
    (hm : movements ≠ []) (hn : names ≠ []) : sweepSteps movements names ≠ [] := by
  cases movements with
  | nil => exact absurd rfl hm
  | cons d rest =>
      cases names with
      | nil => exact absurd rfl hn
      | cons a l => simp [sweepSteps]

/-- Every sweep step's weight name comes from the name list. -/
theorem sweepSteps_names (movements : List ℚ) (names : List String) :
    ∀ p ∈ sweepSteps movements names, p.2 ∈ names := by
  intro p hp
  simp only [sweepSteps, List.mem_flatMap, List.mem_map] at hp
  obtain ⟨d, _, n, hn, he⟩ := hp
  rw [← he]
  exact hn

/-- The key list of the weights dict is invariant across loop
iterations. -/
theorem iterateLoop_keys (metric : List (String × ℚ) → ℚ) (steps : List (ℚ × String))
    (w0 : List (String × ℚ)) (hmem : ∀ p ∈ steps, p.2 ∈ w0.map Prod.fst) :
    ∀ n, (iterateLoop metric steps n (initLoop metric w0)).sw.weights.map Prod.fst =
      w0.map Prod.fst := by
  intro n
  induction n with
  | zero => rfl
  | succ n ih =>
      have hk := (sweep_keys_and_dichotomy metric steps
        (iterateLoop metric steps n (initLoop metric w0)).sw
        (by intro p hp; rw [ih]; exact hmem p hp)).1
      rw [iterateLoop_sw_succ, hk, ih]

/-- previous_score stays inside any set containing the metric's range,
across loop iterations. -/
theorem iterateLoop_prev_mem (metric : List (String × ℚ) → ℚ) (steps : List (ℚ × String))
    (w0 : List (String × ℚ)) (S : Finset ℚ) (hS : ∀ w, metric w ∈ S) :
    ∀ n, (iterateLoop metric steps n (initLoop metric w0)).sw.previous_score ∈ S := by
  intro n
  induction n with
  | zero => exact hS w0
  | succ n ih =>
      rw [iterateLoop_sw_succ]
      exact sweep_prev_mem metric steps S hS _ ih

/-- previous_score is monotone across loop iterations. -/
theorem iterateLoop_prev_mono (metric : List (String × ℚ) → ℚ) (steps : List (ℚ × String))
    (st0 : LoopSt) (n : ℕ) :
    (iterateLoop metric steps n st0).sw.previous_score ≤
      (iterateLoop metric steps (n + 1) st0).sw.previous_score := by
  rw [iterateLoop_sw_succ]
  exact sweep_prev_mono metric steps _

/-- C3: with the overwritten movement list [-1, 6, -2] and a non-empty
initial weight dict, for every deterministic metric whose range lies in
a finite set S (a ranking metric over a fixed finite training set takes
finitely many values), the loop guard "passes < 3 or
overall_improvement > 0" holds for the first three sweeps (a hard
minimum of three) and fails after some finite number n of sweeps, so
the while loop terminates after finitely many sweeps. -/
theorem optimizer_three_sweeps_and_terminates (metric : List (String × ℚ) → ℚ)
    (w0 : List (String × ℚ)) (S : Finset ℚ) (hS : ∀ w, metric w ∈ S)
    (hw0 : w0 ≠ []) :
    (∀ m, m < 3 →
      loopCond (iterateLoop metric (sweepSteps [-1, 6, -2] (w0.map Prod.fst)) m
        (initLoop metric w0))) ∧
    (∃ n, 3 ≤ n ∧
      ¬ loopCond (iterateLoop metric (sweepSteps [-1, 6, -2] (w0.map Prod.fst)) n
        (initLoop metric w0))) := by
  have hnames : w0.map Prod.fst ≠ [] := by
    intro h
    apply hw0
    simpa using h
  have hne : sweepSteps [-1, 6, -2] (w0.map Prod.fst) ≠ [] :=
    sweepSteps_ne_nil _ _ (by simp) hnames
  have hmem : ∀ p ∈ sweepSteps [-1, 6, -2] (w0.map Prod.fst), p.2 ∈ w0.map Prod.fst :=
    sweepSteps_names _ _
  have hpasses : ∀ m, (iterateLoop metric (sweepSteps [-1, 6, -2] (w0.map Prod.fst)) m
      (initLoop metric w0)).passes = m := by
    intro m
    rw [iterateLoop_passes]
    show 0 + m = m
    omega
  refine ⟨fun m hm => Or.inl (by rw [hpasses]; exact hm), ?_⟩
  -- previous_score is monotone with values in the finite set S, so two
  -- consecutive loop iterations share it
  have key : ∃ n,
      (iterateLoop metric (sweepSteps [-1, 6, -2] (w0.map Prod.fst)) (n + 1)
        (initLoop metric w0)).sw.previous_score =
      (iterateLoop metric (sweepSteps [-1, 6, -2] (w0.map Prod.fst)) n
        (initLoop metric w0)).sw.previous_score := by
    by_contra hno
    push_neg at hno
    have hlt : ∀ n,
        (iterateLoop metric (sweepSteps [-1, 6, -2] (w0.map Prod.fst)) n
          (initLoop metric w0)).sw.previous_score <
        (iterateLoop metric (sweepSteps [-1, 6, -2] (w0.map Prod.fst)) (n + 1)
          (initLoop metric w0)).sw.previous_score := by
      intro n
      exact lt_of_le_of_ne (iterateLoop_prev_mono metric _ _ n) (fun he => hno n he.symm)
    have hsm : StrictMono (fun n =>
        (iterateLoop metric (sweepSteps [-1, 6, -2] (w0.map Prod.fst)) n
          (initLoop metric w0)).sw.previous_score) :=
      strictMono_nat_of_lt_succ hlt
    have hmaps : ∀ a ∈ Finset.range (S.card + 1),
        (fun n => (iterateLoop metric (sweepSteps [-1, 6, -2] (w0.map Prod.fst)) n
          (initLoop metric w0)).sw.previous_score) a ∈ S :=
      fun n _ => iterateLoop_prev_mem metric _ w0 S hS n
    have hinj : Set.InjOn
        (fun n => (iterateLoop metric (sweepSteps [-1, 6, -2] (w0.map Prod.fst)) n
          (initLoop metric w0)).sw.previous_score) ↑(Finset.range (S.card + 1)) :=
      fun a _ b _ h => hsm.injective h
    have hcard := Finset.card_le_card_of_injOn _ hmaps hinj
    rw [Finset.card_range] at hcard
    omega
  obtain ⟨n, hn⟩ := key
  have hswsucc : (iterateLoop metric (sweepSteps [-1, 6, -2] (w0.map Prod.fst)) (n + 1)
      (initLoop metric w0)).sw =
      sweep metric (sweepSteps [-1, 6, -2] (w0.map Prod.fst))
        (iterateLoop metric (sweepSteps [-1, 6, -2] (w0.map Prod.fst)) n
          (initLoop metric w0)).sw := rfl
  have hdich := (sweep_keys_and_dichotomy metric (sweepSteps [-1, 6, -2] (w0.map Prod.fst))
    (iterateLoop metric (sweepSteps [-1, 6, -2] (w0.map Prod.fst)) n
      (initLoop metric w0)).sw
    (by intro p hp; rw [iterateLoop_keys metric _ w0 hmem n]; exact hmem p hp)).2
  rcases hdich with hstrict | ⟨hweq, hpeq⟩
  · rw [← hswsucc] at hstrict
    rw [hn] at hstrict
    exact absurd hstrict (lt_irrefl _)
  · -- the sweep state is a fixed point from iteration n+1 on
    have hfix : sweep metric (sweepSteps [-1, 6, -2] (w0.map Prod.fst))
        (iterateLoop metric (sweepSteps [-1, 6, -2] (w0.map Prod.fst)) (n + 1)
          (initLoop metric w0)).sw =
        (iterateLoop metric (sweepSteps [-1, 6, -2] (w0.map Prod.fst)) (n + 1)
          (initLoop metric w0)).sw := by
      have hcon := sweep_congr metric (sweepSteps [-1, 6, -2] (w0.map Prod.fst)) hne
        (iterateLoop metric (sweepSteps [-1, 6, -2] (w0.map Prod.fst)) (n + 1)
          (initLoop metric w0)).sw
        (iterateLoop metric (sweepSteps [-1, 6, -2] (w0.map Prod.fst)) n
          (initLoop metric w0)).sw
        (by rw [hswsucc]; exact hweq)
        (by rw [hswsucc]; exact hpeq)
      rw [hcon, ← hswsucc]
    have hstab : ∀ m, (iterateLoop metric (sweepSteps [-1, 6, -2] (w0.map Prod.fst))
        (n + 1 + m) (initLoop metric w0)).sw =
        (iterateLoop metric (sweepSteps [-1, 6, -2] (w0.map Prod.fst)) (n + 1)
          (initLoop metric w0)).sw := by
      intro m
      induction m with
      | zero => rfl
      | succ m ih =>
          show (iterateLoop metric (sweepSteps [-1, 6, -2] (w0.map Prod.fst))
            ((n + 1 + m) + 1) (initLoop metric w0)).sw = _
          rw [iterateLoop_sw_succ, ih, hfix]
    have himp : (iterateLoop metric (sweepSteps [-1, 6, -2] (w0.map Prod.fst)) (n + 3)
        (initLoop metric w0)).overall_improvement = 0 := by
      have h1 := iterateLoop_improve_succ metric
        (sweepSteps [-1, 6, -2] (w0.map Prod.fst)) (initLoop metric w0) (n + 2)
      have h2 := iterateLoop_baseline_succ metric
        (sweepSteps [-1, 6, -2] (w0.map Prod.fst)) (initLoop metric w0) (n + 1)
      have h3 : (iterateLoop metric (sweepSteps [-1, 6, -2] (w0.map Prod.fst)) (n + 1 + 2)
          (initLoop metric w0)).sw =
          (iterateLoop metric (sweepSteps [-1, 6, -2] (w0.map Prod.fst)) (n + 1)
            (initLoop metric w0)).sw := hstab 2
      have h4 : (iterateLoop metric (sweepSteps [-1, 6, -2] (w0.map Prod.fst)) (n + 1 + 1)
          (initLoop metric w0)).sw =
          (iterateLoop metric (sweepSteps [-1, 6, -2] (w0.map Prod.fst)) (n + 1)
            (initLoop metric w0)).sw := hstab 1
      have he23 : n + 2 + 1 = n + 3 := rfl
      have he12 : n + 1 + 2 = n + 3 := rfl
      have he11 : n + 1 + 1 = n + 2 := rfl
      rw [he23] at h1
      rw [he11] at h2
      rw [he12] at h3
      rw [he11] at h4
      rw [h1, h2, h3, h4, sub_self]
    refine ⟨n + 3, by omega, ?_⟩
    intro hc
    rcases hc with hc | hc
    · rw [hpasses] at hc
      omega
    · rw [himp] at hc
      exact absurd hc (lt_irrefl _)

/-- C3 witness: the constant metric 0 (range inside the singleton set
containing 0) over the one-weight dict. -/
theorem optimizer_three_sweeps_and_terminates_witness :
    ((∀ w : List (String × ℚ), (fun (_ : List (String × ℚ)) => (0 : ℚ)) w ∈ ({0} : Finset ℚ)) ∧
      ([((("a") : String), (1 : ℚ))] ≠ ([] : List (String × ℚ)))) ∧
    ((∀ m, m < 3 →
      loopCond (iterateLoop (fun (_ : List (String × ℚ)) => (0 : ℚ))
        (sweepSteps [-1, 6, -2] (([((("a") : String), (1 : ℚ))]).map Prod.fst)) m
        (initLoop (fun (_ : List (String × ℚ)) => (0 : ℚ)) [((("a") : String), (1 : ℚ))]))) ∧
    (∃ n, 3 ≤ n ∧
      ¬ loopCond (iterateLoop (fun (_ : List (String × ℚ)) => (0 : ℚ))
        (sweepSteps [-1, 6, -2] (([((("a") : String), (1 : ℚ))]).map Prod.fst)) n
        (initLoop (fun (_ : List (String × ℚ)) => (0 : ℚ)) [((("a") : String), (1 : ℚ))])))) :=
  ⟨⟨by simp, by simp⟩,
   optimizer_three_sweeps_and_terminates (fun _ => 0) [((("a") : String), (1 : ℚ))]
     ({0} : Finset ℚ) (by simp) (by simp)⟩

/-- C6 counterexample: the claimed rule moves w = 4 to 4 - (4-1)/3 = 3,
but the code computes amount = abs(min(1, 4)/3) = 1/3 and returns
4 - 1/3 = 11/3. -/
theorem smoothWeight_counterexample :
    smoothWeight 4 = 11 / 3 ∧ smoothWeight 4 ≠ 4 - (4 - 1) / 3 := by
  have habs : |(1 : ℚ) / 3| = 1 / 3 := abs_of_pos (by norm_num)
  constructor <;> norm_num [smoothWeight, habs]

/-- C6 amended: with smooth_weights enabled, a weight above 1 is
decreased by the constant 1/3 (= abs(min(1,w)/3)), a weight below 1 is
increased by one-third of its own magnitude abs(w)/3, and a weight equal
to 1 is unchanged; the move is not one-third of the distance to 1.0 and
can overshoot past 1.0. -/
theorem smoothWeight_formula (w : ℚ) :
    (1 < w → smoothWeight w = w - 1 / 3) ∧
    (w < 1 → smoothWeight w = w + |w| / 3) ∧
    (w = 1 → smoothWeight w = w) := by
  refine ⟨?_, ?_, ?_⟩
  · intro h
    have hmin : min (1 : ℚ) w = 1 := min_eq_left h.le
    simp [smoothWeight, hmin, h]
  · intro h
    have hmin : min (1 : ℚ) w = w := min_eq_right h.le
    have habs : |w / 3| = |w| / 3 := by
      rw [abs_div]
      norm_num
    simp [smoothWeight, hmin, habs, h, not_lt.mpr h.le]
  · intro h
    subst h
    norm_num [smoothWeight]

/-- C6 witness: the three branches evaluated at 4, 1/2 and 1. -/
theorem smoothWeight_formula_witness :
    smoothWeight 4 = 4 - 1 / 3 ∧
    smoothWeight (1 / 2) = 1 / 2 + |(1 : ℚ) / 2| / 3 ∧
    smoothWeight 1 = 1 :=
  ⟨(smoothWeight_formula 4).1 (by norm_num),
   (smoothWeight_formula (1 / 2)).2.1 (by norm_num),
   (smoothWeight_formula 1).2.2 rfl⟩

/-- C10: two experiment configurations differing only in the configured
movements list produce identical optimizer runs (weights out, for every
metric, initial weight dict and fuel), because dynamicWeightValues
overwrites exp["movements"] with [-1, 6, -2] (weight_training.py:49)
before the sweep loop ever reads it. -/
theorem movements_config_ignored (m1 m2 : List ℚ) (sm : Bool)
    (metric : List (String × ℚ) → ℚ) (w0 : List (String × ℚ)) (fuel : ℕ) :
    dynamicWeightRun (ExpConfig.mk m1 sm) metric w0 fuel =
      dynamicWeightRun (ExpConfig.mk m2 sm) metric w0 fuel := rfl

/-- Modelled from the spec: sklearn.model_selection.KFold(n_splits=k,
shuffle=False, random_state=None), the third-party splitter used at
weight_training.py:70 and 239 — library code outside this repository.
With shuffling disabled its documented split of n samples is
deterministic and contiguous: the first n mod k folds have size
n / k + 1, the remaining folds size n / k. -/
def foldSize (n k i : ℕ) : ℕ := n / k + if i < n % k then 1 else 0

/-- The first sample index of test fold i under the contiguous split. -/
def foldStart (n k i : ℕ) : ℕ := i * (n / k) + min i (n % k)

/-- The test index block of fold i (sklearn testcv at
weight_training.py:73/241): the i-th contiguous block of indices. -/
def testcv (n k i : ℕ) : List ℕ :=
  (List.range (foldSize n k i)).map (fun j => foldStart n k i + j)

/-- The train indices of fold i (sklearn traincv): all indices of the
result set that are not in the test block, in order. -/
def traincv (n k i : ℕ) : List ℕ :=
  (List.range n).filter (fun j => decide (j ∉ testcv n k i))

/-- Test fold membership is interval membership. -/
theorem mem_testcv (n k i m : ℕ) :
    m ∈ testcv n k i ↔
      foldStart n k i ≤ m ∧ m < foldStart n k i + foldSize n k i := by
  simp only [testcv, List.mem_map, List.mem_range]
  constructor
  · rintro ⟨j, hj, he⟩
    omega
  · intro h
    exact ⟨m - foldStart n k i, by omega, by omega⟩

/-- Consecutive fold starts differ by the fold size. -/
theorem foldStart_succ (n k i : ℕ) :
    foldStart n k (i + 1) = foldStart n k i + foldSize n k i := by
  unfold foldStart foldSize
  rcases Nat.lt_or_ge i (n % k) with h | h
  · have h1 : min i (n % k) = i := by omega
    have h2 : min (i + 1) (n % k) = i + 1 := by omega
    rw [h1, h2, if_pos h]
    ring
  · have h1 : min i (n % k) = n % k := by omega
    have h2 : min (i + 1) (n % k) = n % k := by omega
    rw [h1, h2, if_neg (by omega)]
    ring

/-- Fold starts are monotone in the fold index. -/
theorem foldStart_mono (n k : ℕ) : Monotone (foldStart n k) :=
  monotone_nat_of_le_succ (fun i => by rw [foldStart_succ]; omega)

/-- After the last fold the start marker has consumed all n samples. -/
theorem foldStart_last (n k : ℕ) (hk : 0 < k) : foldStart n k k = n := by
  unfold foldStart
  have h1 : min k (n % k) = n % k := by
    have := Nat.mod_lt n hk
    omega
  rw [h1]
  exact Nat.div_add_mod n k

/-- Every test index is a valid sample index. -/
theorem testcv_lt (n k i : ℕ) (hk : 0 < k) (hi : i < k) (m : ℕ)
    (hm : m ∈ testcv n k i) : m < n := by
  rw [mem_testcv] at hm
  have h1 := foldStart_succ n k i
  have h2 : foldStart n k (i + 1) ≤ foldStart n k k := foldStart_mono n k (by omega)
  rw [foldStart_last n k hk] at h2
  omega

/-- Distinct test folds are disjoint. -/
theorem testcv_disjoint (n k i j : ℕ) (hij : i < j) (m : ℕ)
    (h1 : m ∈ testcv n k i) (h2 : m ∈ testcv n k j) : False := by
  rw [mem_testcv] at h1 h2
  have hs := foldStart_succ n k i
  have hm : foldStart n k (i + 1) ≤ foldStart n k j := foldStart_mono n k (by omega)
  omega

/-- Every index below the t-th fold start belongs to one of the first t
test folds. -/
theorem testcv_cover (n k : ℕ) : ∀ t m, m < foldStart n k t →
    ∃ i, i < t ∧ m ∈ testcv n k i := by
  intro t
  induction t with
  | zero => intro m hm; simp [foldStart] at hm
  | succ t ih =>
      intro m hm
      rcases Nat.lt_or_ge m (foldStart n k t) with h | h
      · obtain ⟨i, hi, hmem⟩ := ih m h
        exact ⟨i, by omega, hmem⟩
      · refine ⟨t, by omega, ?_⟩
        rw [mem_testcv]
        rw [foldStart_succ] at hm
        omega

/-- C7: for a result set of size n and fold count k with k ≤ n, the
deterministic unshuffled k-fold split (a pure function of (n, k, i), so
reproducible from them alone) gives for each fold i < k a train/test
pair that is disjoint with union exactly the index range below n, and
the k test blocks are pairwise disjoint and cover every index exactly
once. -/
theorem kfold_partition (n k i : ℕ) (hk : 0 < k) (hkn : k ≤ n) (hi : i < k) :
    (∀ m ∈ traincv n k i, m ∉ testcv n k i) ∧
    (∀ m, (m ∈ traincv n k i ∨ m ∈ testcv n k i) ↔ m < n) ∧
    (∀ j, j < k → j ≠ i → ∀ m ∈ testcv n k i, m ∉ testcv n k j) ∧
    (∀ m, m < n → ∃! j, j < k ∧ m ∈ testcv n k j) := by
  refine ⟨?_, ?_, ?_, ?_⟩
  · intro m hm
    simp [traincv] at hm
    exact hm.2
  · intro m
    constructor
    · rintro (hm | hm)
      · simp [traincv] at hm
        exact hm.1
      · exact testcv_lt n k i hk hi m hm
    · intro hm
      by_cases ht : m ∈ testcv n k i
      · exact Or.inr ht
      · refine Or.inl ?_
        simp [traincv]
        exact ⟨hm, ht⟩
  · intro j hj hne m hm hmj
    rcases Nat.lt_or_ge i j with h | h
    · exact testcv_disjoint n k i j h m hm hmj
    · exact testcv_disjoint n k j i (by omega) m hmj hm
  · intro m hm
    have hcov : ∃ j, j < k ∧ m ∈ testcv n k j := by
      apply testcv_cover n k k m
      rw [foldStart_last n k hk]
      exact hm
    obtain ⟨j, hj, hmem⟩ := hcov
    refine ⟨j, ⟨hj, hmem⟩, ?_⟩
    rintro j2 ⟨hj2, hmem2⟩
    by_contra hne
    rcases Nat.lt_or_ge j2 j with h | h
    · exact testcv_disjoint n k j2 j h m hmem2 hmem
    · exact testcv_disjoint n k j j2 (by omega) m hmem hmem2

/-- C7 witness: n = 5 samples, k = 2 folds, fold 0. -/
theorem kfold_partition_witness :
    ((0 : ℕ) < 2 ∧ (2 : ℕ) ≤ 5 ∧ (0 : ℕ) < 2) ∧
    ((∀ m ∈ traincv 5 2 0, m ∉ testcv 5 2 0) ∧
    (∀ m, (m ∈ traincv 5 2 0 ∨ m ∈ testcv 5 2 0) ↔ m < 5) ∧
    (∀ j, j < 2 → j ≠ 0 → ∀ m ∈ testcv 5 2 0, m ∉ testcv 5 2 j) ∧
    (∀ m, m < 5 → ∃! j, j < 2 ∧ m ∈ testcv 5 2 j)) :=
  ⟨⟨by decide, by decide, by decide⟩,
   kfold_partition 5 2 0 (by decide) (by decide) (by decide)⟩

/-- The metadata dict assembled at weight_training.py:340-347 for one
query's result: the record's own fields except doc_method, which is the
method argument of measurePrecomputedResolution. -/
structure ResultMeta where
  file_guid : String
  citation_id : String
  doc_position : ℤ
  query_method : String
  doc_method : String
  az : String
  cfc : String
  match_guids : List String

/-- One precomputed retrieval record as read by
measurePrecomputedResolution: hasFormulas models whether the "formulas"
key is present (its absence means a read error and the record is
skipped, weight_training.py:333-335); the formulas payload is opaque
here (consumed only by runPrecomputedQuery). -/
structure PrecomputedResult (φ : Type) where
  hasFormulas : Bool
  formulas : φ
  file_guid : String
  citation_id : String
  doc_position : ℤ
  query_method : String
  az : String
  cfc : String
  match_guids : List String
  citation_multi : ℤ

/-- What the logger receives for one record: either the all-zero
outcome logged via addResolutionResultDict when the recomputed candidate
list is empty (weight_training.py:349-358), or a measureScoreAndLog call
on a non-empty candidate list (weight_training.py:360). -/
inductive LogEntry (ρ : Type) where
  | zeroOutcome (meta : ResultMeta) (mrr_score precision_score ndcg_score : ℚ)
      (rank : ℤ) (first_result : String)
  | scored (retrieved : List ρ) (citation_multi : ℤ) (meta : ResultMeta)

/-- The result_dict metadata built at weight_training.py:340-347. -/
def resultMeta {φ : Type} (method : String) (r : PrecomputedResult φ) : ResultMeta :=
  ResultMeta.mk r.file_guid r.citation_id r.doc_position r.query_method method
    r.az r.cfc r.match_guids

/-- The per-record loop of WeightTrainer.measurePrecomputedResolution
(weight_training.py:331-360): skip records without formulas, recompute
the query (runPrecomputedQuery, an external collaborator passed as a
function here), and log an all-zero outcome when the recomputed
candidate list is empty (the Python test "not retrieved or
len(retrieved) == 0" is emptiness for a list) or a scored outcome
otherwise.  The function is total: no branch raises. -/
def processResults {φ ρ : Type} (runQuery : φ → List (String × ℚ) → List ρ)
    (method : String) (parameters : List (String × ℚ)) :
    List (PrecomputedResult φ) → List (LogEntry ρ)
  | [] => []
  | r :: rest =>
      if r.hasFormulas = false then processResults runQuery method parameters rest
      else
        match runQuery r.formulas parameters with
        | [] =>
            LogEntry.zeroOutcome (resultMeta method r) 0 0 0 0 ("") ::
              processResults runQuery method parameters rest
        | x :: xs =>
            LogEntry.scored (x :: xs) r.citation_multi (resultMeta method r) ::
              processResults runQuery method parameters rest

/-- C9: when the recomputed candidate list for a query is empty, the
run logs a result with mrr, precision and ndcg scores 0, rank 0 and an
empty first_result, does not raise (processResults is total), and
continues over the remaining queries (the tail is processed
unchanged). -/
theorem processResults_empty_query {φ ρ : Type}
    (runQuery : φ → List (String × ℚ) → List ρ) (method : String)
    (parameters : List (String × ℚ)) (r : PrecomputedResult φ)
    (rest : List (PrecomputedResult φ)) (hf : r.hasFormulas = true)
    (hempty : runQuery r.formulas parameters = []) :
    processResults runQuery method parameters (r :: rest) =
      LogEntry.zeroOutcome (resultMeta method r) 0 0 0 0 ("") ::
        processResults runQuery method parameters rest := by
  simp [processResults, hf, hempty]

/-- C9 witness: a single record whose recomputed candidate list is
empty. -/
theorem processResults_empty_query_witness :
    ((PrecomputedResult.mk true () ("g") ("c") (0 : ℤ) ("q") ("az") ("cfc") [] 1).hasFormulas = true ∧
     (fun (_ : Unit) (_ : List (String × ℚ)) => ([] : List ℕ))
       (PrecomputedResult.mk true () ("g") ("c") (0 : ℤ) ("q") ("az") ("cfc") [] 1).formulas [] = []) ∧
    processResults (fun (_ : Unit) (_ : List (String × ℚ)) => ([] : List ℕ)) ("m") []
        [PrecomputedResult.mk true () ("g") ("c") (0 : ℤ) ("q") ("az") ("cfc") [] 1] =
      LogEntry.zeroOutcome
          (resultMeta ("m") (PrecomputedResult.mk true () ("g") ("c") (0 : ℤ) ("q") ("az") ("cfc") [] 1))
          0 0 0 0 ("") ::
        processResults (fun (_ : Unit) (_ : List (String × ℚ)) => ([] : List ℕ)) ("m") [] [] :=
  ⟨⟨rfl, rfl⟩,
   processResults_empty_query (fun (_ : Unit) (_ : List (String × ℚ)) => ([] : List ℕ))
     ("m") [] (PrecomputedResult.mk true () ("g") ("c") (0 : ℤ) ("q") ("az") ("cfc") [] 1)
     [] rfl rfl⟩

end Minerva
